import Mathlib

/-!
Verification model of the LEPL evaluation engine core (`lepl/stream.py`,
`lepl/parser.py`, `lepl/monitor.py`).

The development shallowly embeds:
* the chunk/line stream model (`Line`, `StreamView`, `LineSource`) and its
  indexing / slicing operations;
* the lazily materialised, cached line chain (`Line.next`) as an explicit
  state-passing heap model;
* delegated locations for transformed streams (`BaseDelegateSource.location`,
  `BaseTransformedSource.__next__`);
* the trampoline scheduler (`trampoline`) as a small-step state machine over
  an explicit embedding of Python generators, including the optional monitor
  callbacks with Python calling conventions (an argument-count mismatch
  raises TypeError);
* `Configuration.__init__` / `MultipleMonitors.__init__` and
  `make_parser`'s single-result wrapper.

Python machine integers are modelled as `Nat`/`Int`; fallible operations
return `Except Exc`.  Python indices quantified over by the claims are
natural numbers (the claims do not exercise Python's negative-index
convention).
-/

set_option autoImplicit false

universe u

/-- Messages attached to IndexError: either the bare error (`IndexError()`),
the counted slice error (`IndexError('Missing k items')`), or the two slice
argument errors raised by `StreamView.__getitem__`. -/
inductive IndexMsg where
  | plain
  | missing (k : Nat)
  | sliceStep
  | sliceStart
  deriving DecidableEq, Repr

/-- Python exceptions that the modelled code can raise or propagate. -/
inductive Exc where
  | stopIteration
  | typeError
  | nameError
  | indexError (m : IndexMsg)
  | other (n : Nat)
  deriving DecidableEq, Repr

/-! ## The chunk-chain stream model (`lepl/stream.py`)

A dataset produced by `DefaultStreamFactory.__call__` over a `LineSource` is
determined by the list of lines ("chunks") the underlying iterator yields, in
order.  The `Line` object at chain position `i` holds `chunks[i]` for
`i < chunks.length` and `None` (the end marker returned forever by
`LineSource.__next__` after exhaustion) for `i ≥ chunks.length`.  Each chain
carries an identity token `chainId`: `Line` defines no `__eq__`, so Python
compares `Line` objects by object identity, and (as the cached-materialisation
model `lineNext` below shows) the line object at a given chain position is
created exactly once, making (chain identity, position) a faithful model of
`Line` object identity. -/

/-- A dataset: the chunks its source yields, an identity token, and the
source description used in locations. -/
structure LineChain (ε : Type u) where
  chainId : Nat
  chunks : List (List ε)
  desc : String

/-- A reference to the `Line` object at position `idx` of a chain. -/
structure LineRef (ε : Type u) where
  chain : LineChain ε
  idx : Nat

/-- The `line` attribute of the referenced `Line`: the chunk data, or `none`
for the `None` end marker. -/
def LineRef.data {ε : Type u} (l : LineRef ε) : Option (List ε) :=
  l.chain.chunks[l.idx]?

/-- Python truthiness of `line.line`: `None` and empty sequences are falsy. -/
def LineRef.truthy {ε : Type u} (l : LineRef ε) : Bool :=
  match l.data with
  | some c => !c.isEmpty
  | none => false

/-- Model of `Line.previous_length`: total length of all earlier lines.  (For lines at
or past the end marker the `len(None)` TypeError is caught and the value
stays constant, which `List.take` past the end reproduces.) -/
def LineRef.prevLen {ε : Type u} (l : LineRef ε) : Nat :=
  ((l.chain.chunks.take l.idx).map List.length).sum

/-- The `location_state` stored on a line by `LineSource.__next__`:
`(character_count, line_count)` for real lines, `(-1, -1)` for the end
marker. -/
def LineRef.locState {ε : Type u} (l : LineRef ε) : Int × Int :=
  if l.idx < l.chain.chunks.length then ((l.prevLen : Int), ((l.idx : Int) + 1))
  else (-1, -1)

/-- Model of `StreamView`: a view into a line at a character offset. -/
structure StreamView (ε : Type u) where
  line : LineRef ε
  offset : Nat

/-- The walk of `StreamView.__at`'s while-loop over a suffix of the chunk
list: `while line.line and index >= len(line.line): index -= len; line = line.next`.
Returns (number of lines advanced, final in-line index). -/
def walkChunks {ε : Type u} : List (List ε) → Nat → Nat × Nat
  | [], index => (0, index)
  | c :: rest, index =>
    if c.length ≠ 0 ∧ c.length ≤ index then
      let p := walkChunks rest (index - c.length)
      (p.1 + 1, p.2)
    else (0, index)

/-- The while-loop of `StreamView.__at` run from a view: `index += offset`,
then walk whole truthy lines. -/
def landingWalk {ε : Type u} (s : StreamView ε) (index : Nat) : Nat × Nat :=
  walkChunks (s.line.chain.chunks.drop s.line.idx) (index + s.offset)

/-- The line `StreamView.__at` stops on. -/
def landingLine {ε : Type u} (s : StreamView ε) (index : Nat) : LineRef ε :=
  ⟨s.line.chain, s.line.idx + (landingWalk s index).1⟩

/-- Model of `StreamView.__at(index, strict)`: locate `(line, in-line index)`, raising
`IndexError()` when the walk ends on a falsy line and `strict` holds or the
residual index is non-zero. -/
def StreamView.seek {ε : Type u} (s : StreamView ε) (index : Nat) (strict : Bool) :
    Except Exc (LineRef ε × Nat) :=
  if ¬(landingLine s index).truthy = true ∧ (strict = true ∨ (landingWalk s index).2 ≠ 0)
  then .error (.indexError .plain)
  else .ok (landingLine s index, (landingWalk s index).2)

/-- Truthiness of a stream view (`bool(StreamView)`): that of the current line's data. -/
def StreamView.truthy {ε : Type u} (s : StreamView ε) : Bool :=
  s.line.truthy

/-- Model of `StreamView.__getitem__` with an integer index `[n]`. -/
def StreamView.item {ε : Type u} (s : StreamView ε) (n : Nat) : Except Exc ε :=
  match s.seek n true with
  | .error e => .error e
  | .ok (l, k) =>
    match l.data with
    | some ck =>
      match ck[k]? with
      | some x => .ok x
      | none => .error (.indexError .plain)
    | none => .error (.indexError .plain)

/-- Model of `StreamView.__getitem__` with an open slice `[n:]`. -/
def StreamView.sliceFrom {ε : Type u} (s : StreamView ε) (n : Nat) :
    Except Exc (StreamView ε) :=
  if n = 0 ∧ s.offset = 0 then .ok s
  else
    match s.seek n false with
    | .error e => .error e
    | .ok (l, k) => .ok ⟨l, k⟩

/-- The `while line.line and remainder > 0` gathering loop of the bounded
slice `[n:m]`, entered with the (truthy) line found by `__at`; `rest` is the
chunk list after that line.  Returns the appended pieces and the final
`remainder`. -/
def gatherLoop {ε : Type u} : List (List ε) → Int → List (List ε) × Int
  | [], r => ([], r)
  | c :: rest, r =>
    if r ≤ 0 then ([], r)
    else if c.isEmpty then ([], r)
    else
      let piece := c.take (min r.toNat c.length)
      let p := gatherLoop rest (r - (c.length : Int))
      (piece :: p.1, p.2)

/-- Model of `StreamView.__getitem__` with a bounded slice `[n:m]`.  The result list
is the concatenation handed to `source.join` (for string sources `join` is
`''.join`, i.e. concatenation).  `length = stop - start` is non-negative
here because the claims quantify over `n ≤ m`; `first` is
`line.line[start:min(start+length, line_length)]` and the loop remainder
starts at `length - (line_length - start)` (a Python int, hence `Int`). -/
def StreamView.sliceTo {ε : Type u} (s : StreamView ε) (n m : Nat) :
    Except Exc (List ε) :=
  if m - n = 0 then .ok []
  else
    match s.seek n true with
    | .error e => .error e
    | .ok (l, start) =>
      match l.data with
      | none => .error (.indexError .plain)
      | some ck =>
        if (gatherLoop (s.line.chain.chunks.drop (l.idx + 1))
              (((m - n : Nat) : Int) - ((ck.length : Int) - (start : Int)))).2 > 0
        then .error (.indexError (.missing
          (gatherLoop (s.line.chain.chunks.drop (l.idx + 1))
              (((m - n : Nat) : Int) - ((ck.length : Int) - (start : Int)))).2.toNat))
        else .ok (((ck.drop start).take (min (m - n) (ck.length - start))
              :: (gatherLoop (s.line.chain.chunks.drop (l.idx + 1))
                  (((m - n : Nat) : Int) - ((ck.length : Int) - (start : Int)))).1).flatten)

/-- A Python slice object as passed to `__getitem__`. -/
structure PySlice where
  start : Option Nat
  stop : Option Nat
  step : Option Nat

/-- Modelled from the spec: `open_stop` lives in the support module of the
repository, which is not under `src/`.  Per §4.1's contract
(`advance(n) -> Position` for an unbounded slice versus
`slice(n, m) -> aggregated element sequence` for a bounded one), a slice is
open exactly when no stop bound is given. -/
def open_stop (sl : PySlice) : Bool :=
  sl.stop.isNone

/-- Model of `StreamView.__getitem__` with a slice argument: dispatches between the
step/start argument errors, the open slice and the bounded slice. -/
def StreamView.getSlice {ε : Type u} (s : StreamView ε) (sl : PySlice) :
    Except Exc (StreamView ε ⊕ List ε) :=
  if sl.step.isSome then .error (.indexError .sliceStep)
  else
    match sl.start with
    | none => .error (.indexError .sliceStart)
    | some n =>
      if open_stop sl then (s.sliceFrom n).map .inl
      else
        match sl.stop with
        | some m => (s.sliceTo n m).map .inr
        | none => .error (.indexError .sliceStart)

/-- The elements reachable from the start of a chunk-list by the code's
walk: everything up to the first falsy (empty or `None`) line. -/
def availC {ε : Type u} (cs : List (List ε)) : List ε :=
  (cs.takeWhile (fun c => !c.isEmpty)).flatten

/-- The remaining data visible from a view: the reachable elements of its
chain suffix, minus the in-line offset. -/
def StreamView.avail {ε : Type u} (s : StreamView ε) : List ε :=
  (availC (s.line.chain.chunks.drop s.line.idx)).drop s.offset

/-- Equality of the underlying `Line` objects as `StreamView.__eq__` sees it: `Line` defines no
`__eq__`, so Python falls back to object identity, which the chain model
renders as (chain identity, chain position). -/
def lineIdent {ε : Type u} (l1 l2 : LineRef ε) : Bool :=
  (l1.chain.chainId == l2.chain.chainId) && (l1.idx == l2.idx)

/-- Model of `StreamView.__eq__`: `type(self) is type(other) and self.__line ==
other.__line and self.__offset == other.__offset` (the type test always
passes between two stream views). -/
def StreamView.eqv {ε : Type u} (a b : StreamView ε) : Bool :=
  lineIdent a.line b.line && (a.offset == b.offset)

/-! ## Characterisation of the walk against the reachable data -/

theorem availC_cons {ε : Type u} (c : List ε) (rest : List (List ε)) :
    availC (c :: rest) = if c.isEmpty then [] else c ++ availC rest := by
  cases h : c.isEmpty <;> simp [availC, List.takeWhile_cons, h]

theorem availC_nil {ε : Type u} : availC ([] : List (List ε)) = [] := rfl

/-- The walk lands where the reachable data says: `availC cs` indexed at the
walked distance is the landing line's residual index, when that line is
truthy. -/
theorem availC_getElem {ε : Type u} (cs : List (List ε)) (idx : Nat) :
    (availC cs)[idx]? =
      ((cs.drop (walkChunks cs idx).1).head?.bind
        (fun ck => if ck.isEmpty then none else ck[(walkChunks cs idx).2]?)) := by
  induction cs generalizing idx with
  | nil => simp [availC, walkChunks]
  | cons c rest ih =>
    by_cases h : c.length ≠ 0 ∧ c.length ≤ idx
    · have hne : c.isEmpty = false := by
        cases c with
        | nil => exact absurd rfl h.1
        | cons a t => rfl
      simp only [walkChunks, if_pos h]
      rw [availC_cons, hne]
      simp only [Bool.false_eq_true, if_false]
      rw [List.getElem?_append_right h.2, List.drop_succ_cons]
      exact ih (idx - c.length)
    · simp only [walkChunks, if_neg h]
      cases hne : c.isEmpty with
      | true =>
        rw [availC_cons, hne]
        simp [hne]
      | false =>
        have hzero : c.length ≠ 0 := by
          cases c with
          | nil => simp at hne
          | cons a t => simp
        have hlt : idx < c.length := by
          by_contra hge
          exact h ⟨hzero, Nat.le_of_not_lt hge⟩
        rw [availC_cons, hne]
        simp only [Bool.false_eq_true, if_false, List.drop_zero, List.head?_cons,
          Option.some_bind, hne]
        exact List.getElem?_append_left hlt

/-- When the walk lands on a truthy line, the residual index is in range. -/
theorem walkChunks_lt {ε : Type u} (cs : List (List ε)) (idx : Nat) (c : List ε)
    (hc : (cs.drop (walkChunks cs idx).1).head? = some c) (hne : c.isEmpty = false) :
    (walkChunks cs idx).2 < c.length := by
  induction cs generalizing idx with
  | nil => simp [walkChunks] at hc
  | cons c0 rest ih =>
    by_cases h : c0.length ≠ 0 ∧ c0.length ≤ idx
    · simp only [walkChunks, if_pos h, List.drop_succ_cons] at hc ⊢
      exact ih (idx - c0.length) hc
    · simp only [walkChunks, if_neg h, List.drop_zero, List.head?_cons,
        Option.some.injEq] at hc ⊢
      subst hc
      rcases Nat.lt_or_ge idx c0.length with h' | h'
      · exact h'
      · have hzero : c0.length ≠ 0 := by
          cases c0 with
          | nil => simp at hne
          | cons a t => simp
        exact absurd ⟨hzero, h'⟩ h

/-- Decomposition of the reachable data at the walk's landing point: the
lines walked over are all truthy and contribute exactly the walked distance. -/
theorem walkChunks_decomp {ε : Type u} (cs : List (List ε)) (idx : Nat) :
    availC cs = (cs.take (walkChunks cs idx).1).flatten
        ++ availC (cs.drop (walkChunks cs idx).1)
    ∧ ((cs.take (walkChunks cs idx).1).flatten).length = idx - (walkChunks cs idx).2
    ∧ (walkChunks cs idx).2 ≤ idx := by
  induction cs generalizing idx with
  | nil => exact ⟨rfl, by simp [walkChunks], by simp [walkChunks]⟩
  | cons c rest ih =>
    by_cases h : c.length ≠ 0 ∧ c.length ≤ idx
    · have hne : c.isEmpty = false := by
        cases c with
        | nil => exact absurd rfl h.1
        | cons a t => rfl
      obtain ⟨ih1, ih2, ih3⟩ := ih (idx - c.length)
      simp only [walkChunks, if_pos h, List.take_succ_cons, List.drop_succ_cons,
        List.flatten_cons, List.length_append]
      refine ⟨?_, ?_, ?_⟩
      · rw [availC_cons, hne]
        simp only [Bool.false_eq_true, if_false, List.append_assoc]
        rw [ih1]
      · rw [ih2]
        omega
      · omega
    · simp only [walkChunks, if_neg h, List.take_zero, List.drop_zero,
        List.flatten_nil, List.nil_append, List.length_nil]
      exact ⟨trivial, by omega, Nat.le_refl idx⟩

/-! ## StreamView indexing against the remaining data -/

theorem avail_getElem {ε : Type u} (s : StreamView ε) (n : Nat) :
    s.avail[n]? = (availC (s.line.chain.chunks.drop s.line.idx))[n + s.offset]? := by
  unfold StreamView.avail
  rw [List.getElem?_drop, Nat.add_comm]

theorem landingLine_data {ε : Type u} (s : StreamView ε) (n : Nat) :
    (landingLine s n).data =
      ((s.line.chain.chunks.drop s.line.idx).drop (landingWalk s n).1).head? := by
  rw [List.head?_drop, List.getElem?_drop]
  rfl

/-- Indexing `StreamView.__getitem__[n]` returns exactly the `n`-th remaining element,
raising a bare `IndexError` when `n` is at or past the end of the reachable
data. -/
theorem item_spec {ε : Type u} (s : StreamView ε) (n : Nat) :
    s.item n = (match s.avail[n]? with
      | some x => Except.ok x
      | none => Except.error (Exc.indexError IndexMsg.plain)) := by
  rw [avail_getElem, availC_getElem]
  unfold StreamView.item StreamView.seek
  rcases hd : ((s.line.chain.chunks.drop s.line.idx).drop
      (walkChunks (s.line.chain.chunks.drop s.line.idx) (n + s.offset)).1).head?
    with _ | ck
  · have hdata : (landingLine s n).data = none := by rw [landingLine_data]; exact hd
    have htr : (landingLine s n).truthy = false := by
      unfold LineRef.truthy
      rw [hdata]
    rw [if_pos ⟨by simp [htr], Or.inl rfl⟩]
    simp [hd]
  · have hdata : (landingLine s n).data = some ck := by rw [landingLine_data]; exact hd
    cases hke : ck.isEmpty with
    | true =>
      have htr : (landingLine s n).truthy = false := by
        unfold LineRef.truthy
        rw [hdata]
        simp [hke]
      rw [if_pos ⟨by simp [htr], Or.inl rfl⟩]
      simp [hd, hke]
    | false =>
      have htr : (landingLine s n).truthy = true := by
        unfold LineRef.truthy
        rw [hdata]
        simp [hke]
      have hnot : ¬(¬(landingLine s n).truthy = true ∧
          (true = true ∨ (landingWalk s n).2 ≠ 0)) := by
        intro hcon
        exact hcon.1 htr
      rw [if_neg hnot]
      have hlt := walkChunks_lt (s.line.chain.chunks.drop s.line.idx) (n + s.offset) ck hd hke
      simp only [hd, hke, Bool.false_eq_true, if_false, Option.some_bind]
      rw [hdata]
      rfl

theorem landing_of_getElem {ε : Type u} (s : StreamView ε) (n : Nat) (x : ε)
    (h : s.avail[n]? = some x) :
    ∃ ck, (landingLine s n).data = some ck ∧ ck.isEmpty = false ∧
      ck[(landingWalk s n).2]? = some x ∧ (landingLine s n).truthy = true := by
  rw [avail_getElem, availC_getElem] at h
  rcases hd : ((s.line.chain.chunks.drop s.line.idx).drop
      (walkChunks (s.line.chain.chunks.drop s.line.idx) (n + s.offset)).1).head?
    with _ | ck
  · rw [hd] at h
    simp at h
  · rw [hd] at h
    simp only [Option.some_bind] at h
    cases hke : ck.isEmpty with
    | true =>
      rw [hke] at h
      simp at h
    | false =>
      rw [hke] at h
      simp only [Bool.false_eq_true, if_false] at h
      have hdata : (landingLine s n).data = some ck := by
        rw [landingLine_data]
        exact hd
      refine ⟨ck, hdata, hke, h, ?_⟩
      unfold LineRef.truthy
      rw [hdata]
      simp [hke]

theorem seek_ok_of_getElem {ε : Type u} (s : StreamView ε) (n : Nat) (x : ε)
    (strict : Bool) (h : s.avail[n]? = some x) :
    s.seek n strict = .ok (landingLine s n, (landingWalk s n).2) := by
  obtain ⟨ck, _, _, _, htr⟩ := landing_of_getElem s n x h
  unfold StreamView.seek
  rw [if_neg]
  intro hcon
  exact hcon.1 htr

theorem landingWalk_eq {ε : Type u} (s : StreamView ε) (n : Nat) :
    landingWalk s n = walkChunks (s.line.chain.chunks.drop s.line.idx) (n + s.offset) :=
  rfl

theorem landingLine_idx {ε : Type u} (s : StreamView ε) (n : Nat) :
    (landingLine s n).idx = s.line.idx + (landingWalk s n).1 :=
  rfl

theorem seek_strict_error {ε : Type u} (s : StreamView ε) (n : Nat)
    (h : s.avail[n]? = none) :
    s.seek n true = .error (.indexError .plain) := by
  rw [avail_getElem, availC_getElem] at h
  unfold StreamView.seek
  rw [if_pos]
  refine ⟨?_, Or.inl rfl⟩
  intro htr
  unfold LineRef.truthy at htr
  rw [landingLine_data] at htr
  rw [landingWalk_eq] at htr
  rcases hd : ((s.line.chain.chunks.drop s.line.idx).drop
      (walkChunks (s.line.chain.chunks.drop s.line.idx) (n + s.offset)).1).head?
    with _ | ck
  · rw [hd] at htr
    simp at htr
  · rw [hd] at htr
    cases hke : ck.isEmpty with
    | true =>
      simp [hke] at htr
    | false =>
      have hlt := walkChunks_lt (s.line.chain.chunks.drop s.line.idx)
        (n + s.offset) ck hd hke
      rw [hd] at h
      simp only [Option.some_bind, hke, Bool.false_eq_true, if_false] at h
      rw [List.getElem?_eq_getElem hlt] at h
      simp at h

/-- Landing decomposition used by the slicing proofs: when index `n` holds a
reachable element, `__at` lands on a truthy line whose residue together with
the following reachable lines is exactly the data from `n` on. -/
theorem seek_landing {ε : Type u} (s : StreamView ε) (n : Nat) (x : ε)
    (h : s.avail[n]? = some x) :
    ∃ ck, (landingLine s n).data = some ck ∧ ck.isEmpty = false ∧
      (landingWalk s n).2 < ck.length ∧
      ck[(landingWalk s n).2]? = some x ∧
      s.avail.drop n =
        ck.drop (landingWalk s n).2
          ++ availC (s.line.chain.chunks.drop ((landingLine s n).idx + 1)) := by
  obtain ⟨ck, hdata, hke, hget, _⟩ := landing_of_getElem s n x h
  have hd : ((s.line.chain.chunks.drop s.line.idx).drop
      (walkChunks (s.line.chain.chunks.drop s.line.idx) (n + s.offset)).1).head?
      = some ck := by
    have := hdata
    rw [landingLine_data, landingWalk_eq] at this
    exact this
  have hlt : (landingWalk s n).2 < ck.length :=
    walkChunks_lt (s.line.chain.chunks.drop s.line.idx) (n + s.offset) ck hd hke
  refine ⟨ck, hdata, hke, hlt, hget, ?_⟩
  obtain ⟨hdec1, hdec2, hdec3⟩ :=
    walkChunks_decomp (s.line.chain.chunks.drop s.line.idx) (n + s.offset)
  rw [← landingWalk_eq] at hdec1 hdec2 hdec3
  have hlt' : (landingWalk s n).2 < ck.length := hlt
  have havdrop : s.avail.drop n
      = (availC (s.line.chain.chunks.drop s.line.idx)).drop (n + s.offset) := by
    unfold StreamView.avail
    rw [List.drop_drop]
    congr 1
    omega
  have hcs : (s.line.chain.chunks.drop s.line.idx).drop (landingWalk s n).1
      = ck :: (s.line.chain.chunks.drop s.line.idx).drop ((landingWalk s n).1 + 1) := by
    have hsome : (s.line.chain.chunks.drop s.line.idx)[(landingWalk s n).1]?
        = some ck := by
      rw [← List.head?_drop]
      rw [landingWalk_eq]
      exact hd
    obtain ⟨hlt2, hval⟩ := List.getElem?_eq_some.mp hsome
    rw [List.drop_eq_getElem_cons hlt2, hval]
  rw [havdrop, hdec1, List.drop_append_eq_append_drop,
    List.drop_eq_nil_of_le (by omega), hdec2, List.nil_append]
  have harith : n + s.offset - (n + s.offset - (landingWalk s n).2)
      = (landingWalk s n).2 := by
    omega
  rw [harith, hcs, availC_cons, hke]
  simp only [Bool.false_eq_true, if_false]
  rw [List.drop_append_eq_append_drop]
  have hzero : (landingWalk s n).2 - ck.length = 0 := by
    omega
  rw [hzero, List.drop_zero, List.drop_drop]
  have hfin : s.line.idx + ((landingWalk s n).1 + 1) = (landingLine s n).idx + 1 := by
    rw [landingLine_idx]
    omega
  rw [hfin]

/-- Advancing with `[n:]` loses and shifts no data: the resulting view's
remaining data is exactly the old remaining data after `n`. -/
theorem sliceFrom_spec {ε : Type u} (s : StreamView ε) (n : Nat) (x : ε)
    (h : s.avail[n]? = some x) :
    ∃ s', s.sliceFrom n = .ok s' ∧ s'.avail = s.avail.drop n
      ∧ s'.line.chain = s.line.chain := by
  by_cases hz : n = 0 ∧ s.offset = 0
  · refine ⟨s, ?_, ?_, rfl⟩
    · unfold StreamView.sliceFrom
      rw [if_pos hz]
    · rw [hz.1, List.drop_zero]
  · obtain ⟨ck, hdata, hke, hlt, hget, hdrop⟩ := seek_landing s n x h
    refine ⟨⟨landingLine s n, (landingWalk s n).2⟩, ?_, ?_, rfl⟩
    · unfold StreamView.sliceFrom
      rw [if_neg hz, seek_ok_of_getElem s n x false h]
    · have hchunks : s.line.chain.chunks.drop (landingLine s n).idx
          = ck :: s.line.chain.chunks.drop ((landingLine s n).idx + 1) := by
        have hsome : s.line.chain.chunks[(landingLine s n).idx]? = some ck := hdata
        obtain ⟨hl, hv⟩ := List.getElem?_eq_some.mp hsome
        rw [List.drop_eq_getElem_cons hl, hv]
      show (availC (s.line.chain.chunks.drop (landingLine s n).idx)).drop
          (landingWalk s n).2 = s.avail.drop n
      rw [hchunks, availC_cons, hke]
      simp only [Bool.false_eq_true, if_false]
      rw [List.drop_append_eq_append_drop]
      have hz2 : (landingWalk s n).2 - ck.length = 0 := by
        omega
      rw [hz2, List.drop_zero, hdrop]

/-- Behaviour of the `[n:m]` gathering loop against the reachable data: with
enough data it collects exactly `remainder` further elements and ends
non-positive; otherwise it collects everything reachable and ends with the
missing count. -/
theorem gatherLoop_spec {ε : Type u} (rest : List (List ε)) (r : Int) :
    (r ≤ ((availC rest).length : Int) →
       (gatherLoop rest r).2 ≤ 0 ∧
       (gatherLoop rest r).1.flatten = (availC rest).take r.toNat)
  ∧ (((availC rest).length : Int) < r →
       (gatherLoop rest r).2 = r - ((availC rest).length : Int) ∧
       (gatherLoop rest r).1.flatten = availC rest) := by
  induction rest generalizing r with
  | nil =>
    constructor
    · intro hle
      simp only [availC_nil, List.length_nil, Nat.cast_zero] at hle
      refine ⟨hle, ?_⟩
      simp [gatherLoop, availC_nil]
    · intro hgt
      simp only [availC_nil, List.length_nil, Nat.cast_zero] at hgt
      simp [gatherLoop, availC_nil]
  | cons c rest' ih =>
    by_cases hr : r ≤ 0
    · constructor
      · intro _
        simp only [gatherLoop, if_pos hr]
        refine ⟨hr, ?_⟩
        rw [Int.toNat_of_nonpos hr]
        simp
      · intro hgt
        have : (0 : Int) ≤ ((availC (c :: rest')).length : Int) := by positivity
        omega
    · cases hke : c.isEmpty with
      | true =>
        have hav : availC (c :: rest') = [] := by
          rw [availC_cons, hke]
          rfl
        constructor
        · intro hle
          rw [hav] at hle
          simp only [List.length_nil, Nat.cast_zero] at hle
          exact absurd hle hr
        · intro _
          simp only [gatherLoop, if_neg hr, hke, if_pos rfl]
          rw [hav]
          simp
      | false =>
        have hav : availC (c :: rest') = c ++ availC rest' := by
          rw [availC_cons, hke]
          simp
        have hglen : (gatherLoop (c :: rest') r)
            = ((c.take (min r.toNat c.length)) :: (gatherLoop rest' (r - (c.length : Int))).1,
               (gatherLoop rest' (r - (c.length : Int))).2) := by
          simp only [gatherLoop, if_neg hr, hke]
          rfl
        constructor
        · intro hle
          rw [hav] at hle ⊢
          simp only [List.length_append, Nat.cast_add] at hle
          rw [hglen]
          by_cases hc : r ≤ (c.length : Int)
          · obtain ⟨hrem, hflat⟩ := (ih (r - (c.length : Int))).1 (by omega)
            have htn : (r - (c.length : Int)).toNat = 0 := by
              omega
            have hmin : min r.toNat c.length = r.toNat := by
              omega
            refine ⟨hrem, ?_⟩
            simp only [List.flatten_cons]
            rw [hflat, htn, List.take_zero, List.append_nil, hmin,
              List.take_append_eq_append_take]
            have : r.toNat - c.length = 0 := by
              omega
            rw [this, List.take_zero, List.append_nil]
          · obtain ⟨hrem, hflat⟩ := (ih (r - (c.length : Int))).1 (by omega)
            have hmin : min r.toNat c.length = c.length := by
              omega
            have htn : (r - (c.length : Int)).toNat = r.toNat - c.length := by
              omega
            have hsplit : (c ++ availC rest').take r.toNat
                = c.take r.toNat ++ (availC rest').take (r.toNat - c.length) :=
              List.take_append_eq_append_take
            have hcfull : c.take r.toNat = c := List.take_of_length_le (by omega)
            refine ⟨hrem, ?_⟩
            simp only [List.flatten_cons]
            rw [hflat, hmin, List.take_length, htn, hsplit, hcfull]
        · intro hgt
          rw [hav] at hgt ⊢
          simp only [List.length_append, Nat.cast_add] at hgt ⊢
          rw [hglen]
          obtain ⟨hrem, hflat⟩ := (ih (r - (c.length : Int))).2 (by omega)
          have hmin : min r.toNat c.length = c.length := by
            omega
          refine ⟨by rw [hrem]; ring, ?_⟩
          simp only [List.flatten_cons]
          rw [hflat, hmin, List.take_length]

/-- Bounded slicing with the start past the reachable data raises the bare
IndexError from `__at`. -/
theorem sliceTo_start_past_end {ε : Type u} (s : StreamView ε) (n m : Nat)
    (hnm : n < m) (h : s.avail[n]? = none) :
    s.sliceTo n m = .error (.indexError .plain) := by
  unfold StreamView.sliceTo
  rw [if_neg (by omega), seek_strict_error s n h]

/-- Bounded slicing with enough reachable data returns exactly the elements
`n` to `m` of the remaining data. -/
theorem sliceTo_enough {ε : Type u} (s : StreamView ε) (n m : Nat) (x : ε)
    (hnm : n < m) (h : s.avail[n]? = some x) (hm : m ≤ s.avail.length) :
    s.sliceTo n m = .ok ((s.avail.drop n).take (m - n)) := by
  obtain ⟨ck, hdata, hke, hlt, hget, hdrop⟩ := seek_landing s n x h
  have hlen : s.avail.length - n = (ck.length - (landingWalk s n).2)
      + (availC (s.line.chain.chunks.drop ((landingLine s n).idx + 1))).length := by
    have := congrArg List.length hdrop
    simp only [List.length_drop, List.length_append] at this
    omega
  have hn : n < s.avail.length := (List.getElem?_eq_some.mp h).1
  unfold StreamView.sliceTo
  rw [if_neg (by omega), seek_ok_of_getElem s n x true h]
  simp only [hdata]
  have hr0 : (((m - n : Nat) : Int) - ((ck.length : Int) - ((landingWalk s n).2 : Int)))
      ≤ ((availC (s.line.chain.chunks.drop ((landingLine s n).idx + 1))).length : Int) := by
    omega
  obtain ⟨hrem, hflat⟩ := (gatherLoop_spec
    (s.line.chain.chunks.drop ((landingLine s n).idx + 1))
    (((m - n : Nat) : Int) - ((ck.length : Int) - ((landingWalk s n).2 : Int)))).1 hr0
  rw [if_neg (by omega)]
  congr 1
  simp only [List.flatten_cons]
  rw [hflat]
  have htn : ((((m - n : Nat) : Int) - ((ck.length : Int) - ((landingWalk s n).2 : Int)))).toNat
      = (m - n) - (ck.length - (landingWalk s n).2) := by
    omega
  have hfirst : (ck.drop (landingWalk s n).2).take (min (m - n) (ck.length - (landingWalk s n).2))
      = (ck.drop (landingWalk s n).2).take (m - n) := by
    rcases Nat.le_total (m - n) (ck.length - (landingWalk s n).2) with hc | hc
    · rw [min_eq_left hc]
    · rw [min_eq_right hc,
        List.take_of_length_le (by simp only [List.length_drop]; omega),
        List.take_of_length_le (by simp only [List.length_drop]; omega)]
  rw [htn, hfirst, hdrop, List.take_append_eq_append_take, List.length_drop]

/-- Bounded slicing past the end of the reachable data (with the start still
reachable) raises IndexError reporting the number of missing items. -/
theorem sliceTo_missing {ε : Type u} (s : StreamView ε) (n m : Nat) (x : ε)
    (hnm : n < m) (h : s.avail[n]? = some x) (hm : s.avail.length < m) :
    s.sliceTo n m = .error (.indexError (.missing (m - s.avail.length))) := by
  obtain ⟨ck, hdata, hke, hlt, hget, hdrop⟩ := seek_landing s n x h
  have hlen : s.avail.length - n = (ck.length - (landingWalk s n).2)
      + (availC (s.line.chain.chunks.drop ((landingLine s n).idx + 1))).length := by
    have := congrArg List.length hdrop
    simp only [List.length_drop, List.length_append] at this
    omega
  have hn : n < s.avail.length := (List.getElem?_eq_some.mp h).1
  unfold StreamView.sliceTo
  rw [if_neg (by omega), seek_ok_of_getElem s n x true h]
  simp only [hdata]
  have hr0 : ((availC (s.line.chain.chunks.drop ((landingLine s n).idx + 1))).length : Int)
      < (((m - n : Nat) : Int) - ((ck.length : Int) - ((landingWalk s n).2 : Int))) := by
    omega
  obtain ⟨hrem, _⟩ := (gatherLoop_spec
    (s.line.chain.chunks.drop ((landingLine s n).idx + 1))
    (((m - n : Nat) : Int) - ((ck.length : Int) - ((landingWalk s n).2 : Int)))).2 hr0
  rw [if_pos (by omega)]
  have hfin : (gatherLoop (s.line.chain.chunks.drop ((landingLine s n).idx + 1))
      (((m - n : Nat) : Int) - ((ck.length : Int) - ((landingWalk s n).2 : Int)))).2.toNat
      = m - s.avail.length := by
    omega
  rw [hfin]

/-- A zero-length bounded slice returns the empty join without touching the
data at all. -/
theorem sliceTo_zero {ε : Type u} (s : StreamView ε) (n m : Nat) (hnm : n = m) :
    s.sliceTo n m = .ok [] := by
  unfold StreamView.sliceTo
  rw [if_pos (by omega)]

theorem getSlice_bounded {ε : Type u} (s : StreamView ε) (n m : Nat) :
    s.getSlice ⟨some n, some m, none⟩ = (s.sliceTo n m).map .inr := by
  unfold StreamView.getSlice open_stop
  simp

theorem getSlice_open {ε : Type u} (s : StreamView ε) (n : Nat) :
    s.getSlice ⟨some n, none, none⟩ = (s.sliceFrom n).map .inl := by
  unfold StreamView.getSlice open_stop
  simp

/-- C3: two stream positions are equal exactly when they reference the same
chunk-node (`Line` object identity, i.e. same chain and same position in it)
and the same offset; in particular two positions over byte-identical data but
distinct `Line` objects (distinct chains) are unequal. -/
theorem position_eq_iff_same_node_and_offset :
    (∀ (ε : Type) (a b : StreamView ε),
        StreamView.eqv a b = true ↔
          (a.line.chain.chainId = b.line.chain.chainId ∧ a.line.idx = b.line.idx
            ∧ a.offset = b.offset))
    ∧ (StreamView.eqv (⟨⟨⟨0, [['a', 'b']], "str"⟩, 0⟩, 0⟩ : StreamView Char)
          ⟨⟨⟨1, [['a', 'b']], "str"⟩, 0⟩, 0⟩ = false
        ∧ (⟨⟨⟨0, [['a', 'b']], "str"⟩, 0⟩, 0⟩ : StreamView Char).line.data
            = (⟨⟨⟨1, [['a', 'b']], "str"⟩, 0⟩, 0⟩ : StreamView Char).line.data
        ∧ (⟨⟨⟨0, [['a', 'b']], "str"⟩, 0⟩, 0⟩ : StreamView Char).offset
            = (⟨⟨⟨1, [['a', 'b']], "str"⟩, 0⟩, 0⟩ : StreamView Char).offset) := by
  refine ⟨?_, by decide, rfl, rfl⟩
  intro ε a b
  unfold StreamView.eqv lineIdent
  simp [Bool.and_eq_true, beq_iff_eq, and_assoc]

/-- C5 counterexample: a bounded slice `[1:1]` on an empty stream returns the
empty join rather than raising, although the chain holds fewer than `m = 1`
remaining elements — refuting the claim that any bounded slice `s[n:m]` with
`n ≤ m` and fewer than `m` remaining elements raises IndexError. -/
theorem slice_empty_range_never_raises :
    (⟨⟨⟨0, [], "str"⟩, 0⟩, 0⟩ : StreamView Char).getSlice ⟨some 1, some 1, none⟩
      = .ok (.inr [])
    ∧ (⟨⟨⟨0, [], "str"⟩, 0⟩, 0⟩ : StreamView Char).avail.length < 1 := by
  constructor
  · rfl
  · decide

/-- C5 (amended): single indexing raises a bare IndexError exactly when the
index is at or past the end of the reachable data; a bounded slice `[n:m]`
with `n = m` returns the empty join without checking bounds; with `n < m` it
returns the join of exactly the `m - n` elements starting at `n` when `m`
elements remain, raises IndexError counting the missing items when `n` is
reachable but fewer than `m` elements remain, and raises a bare IndexError
when `n` itself is past the end. -/
theorem getitem_bounds_checked {ε : Type u} (s : StreamView ε) (n m : Nat) :
    ((∀ x, s.avail[n]? = some x → s.item n = .ok x)
      ∧ (s.avail[n]? = none → s.item n = .error (.indexError .plain)))
    ∧ (n = m → s.getSlice ⟨some n, some m, none⟩ = .ok (.inr []))
    ∧ (n < m → m ≤ s.avail.length →
        s.getSlice ⟨some n, some m, none⟩
          = .ok (.inr ((s.avail.drop n).take (m - n))))
    ∧ (∀ x, n < m → s.avail[n]? = some x → s.avail.length < m →
        s.getSlice ⟨some n, some m, none⟩
          = .error (.indexError (.missing (m - s.avail.length))))
    ∧ (n < m → s.avail.length ≤ n →
        s.getSlice ⟨some n, some m, none⟩ = .error (.indexError .plain)) := by
  refine ⟨⟨?_, ?_⟩, ?_, ?_, ?_, ?_⟩
  · intro x hx
    rw [item_spec, hx]
  · intro hx
    rw [item_spec, hx]
  · intro hnm
    rw [getSlice_bounded, sliceTo_zero s n m hnm]
    rfl
  · intro hnm hm
    have hn : n < s.avail.length := by omega
    have hx : s.avail[n]? = some s.avail[n] := List.getElem?_eq_getElem hn
    rw [getSlice_bounded, sliceTo_enough s n m s.avail[n] hnm hx hm]
    rfl
  · intro x hnm hx hm
    rw [getSlice_bounded, sliceTo_missing s n m x hnm hx hm]
    rfl
  · intro hnm hn
    have hx : s.avail[n]? = none := List.getElem?_eq_none hn
    rw [getSlice_bounded, sliceTo_start_past_end s n m hnm hx]
    rfl

/-- Witness for the amended C5 theorem at a concrete stream: slicing `[1:4]`
over the two remaining characters of `"ab"` raises IndexError missing 2. -/
theorem getitem_bounds_checked_witness :
    (1 : Nat) < 4
    ∧ (⟨⟨⟨0, [['a', 'b']], "str"⟩, 0⟩, 0⟩ : StreamView Char).avail[1]? = some 'b'
    ∧ (⟨⟨⟨0, [['a', 'b']], "str"⟩, 0⟩, 0⟩ : StreamView Char).avail.length < 4
    ∧ (⟨⟨⟨0, [['a', 'b']], "str"⟩, 0⟩, 0⟩ : StreamView Char).getSlice
        ⟨some 1, some 4, none⟩ = .error (.indexError (.missing 2)) := by
  refine ⟨by decide, by decide, by decide, ?_⟩
  exact (getitem_bounds_checked (⟨⟨⟨0, [['a', 'b']], "str"⟩, 0⟩, 0⟩ : StreamView Char)
    1 4).2.2.2.1 'b' (by decide) (by decide) (by decide)

/-- C10: advancing commutes with indexing — when position `n + m` holds a
reachable element, `s[n:][m]` succeeds, equals `s[n+m]`, and advancing loses
no elements. -/
theorem advance_commutes_with_indexing {ε : Type u} (s : StreamView ε)
    (n m : Nat) (x : ε) (h : s.avail[n + m]? = some x) :
    ∃ s', s.getSlice ⟨some n, none, none⟩ = .ok (.inl s')
      ∧ s'.item m = .ok x ∧ s.item (n + m) = .ok x := by
  have hlen : n + m < s.avail.length := (List.getElem?_eq_some.mp h).1
  have hn : s.avail[n]? = some s.avail[n] := List.getElem?_eq_getElem (by omega)
  obtain ⟨s', hok, havail, _⟩ := sliceFrom_spec s n s.avail[n] hn
  refine ⟨s', ?_, ?_, ?_⟩
  · rw [getSlice_open, hok]
    rfl
  · rw [item_spec, havail, List.getElem?_drop, h]
  · rw [item_spec, h]

/-- Witness for C10 at a concrete two-chunk stream: `s[1:][1] = s[2] = 'c'`. -/
theorem advance_commutes_with_indexing_witness :
    (⟨⟨⟨0, [['a', 'b'], ['c']], "str"⟩, 0⟩, 0⟩ : StreamView Char).avail[1 + 1]?
      = some 'c'
    ∧ (⟨⟨⟨0, [['a', 'b'], ['c']], "str"⟩, 0⟩, 0⟩ : StreamView Char).item (1 + 1)
      = .ok 'c' := by
  refine ⟨by decide, ?_⟩
  obtain ⟨s', _, _, h3⟩ := advance_commutes_with_indexing
    (⟨⟨⟨0, [['a', 'b'], ['c']], "str"⟩, 0⟩, 0⟩ : StreamView Char) 1 1 'c' (by decide)
  exact h3

/-! ## The lazily cached line chain (`Line.next`, `LineSource.__next__`)

`Line.next` mutates: the first access pulls one item from the source and
stores the new `Line` object in `self.__next`; later accesses return the
stored object.  The model passes the mutable state explicitly: a heap of
`Line` objects addressed by allocation index, plus the source iterator
state. -/

/-- The mutable state of a `LineSource`: lines not yet yielded, the running
character/line counters, and the memoised `total_length` (set on
exhaustion). -/
structure SrcState (ε : Type u) where
  pending : List (List ε)
  charCount : Nat
  lineCount : Nat
  total_length : Option Nat

/-- Model of `LineSource.__next__`: yield `(line, (character_count, line_count))`, or
`(None, (-1, -1))` forever once the underlying iterator is exhausted (also
recording `total_length`). -/
def SrcState.next {ε : Type u} : SrcState ε → SrcState ε × (Option (List ε) × (Int × Int))
  | ⟨[], cc, lc, _⟩ => (⟨[], cc, lc, some cc⟩, (none, (-1, -1)))
  | ⟨l :: rest, cc, lc, tl⟩ =>
    (⟨rest, cc + l.length, lc + 1, tl⟩, (some l, ((cc : Int), (lc : Int))))

/-- A `Line` object on the heap: its data, `previous_length`, the
`location_state` stored by the source (`none` for the fresh head object),
and the cached `self.__next` reference. -/
structure LineObj (ε : Type u) where
  line : Option (List ε)
  previous_length : Nat
  location_state : Option (Int × Int)
  nextRef : Option Nat

/-- The mutable state of one line chain: the heap of materialised `Line`
objects (addressed by allocation index) and the source state. -/
structure ChainSt (ε : Type u) where
  store : List (LineObj ε)
  src : SrcState ε

/-- Model of `Line.next` (the property body): if `self.__next` is unset, pull one
item from the source, compute `previous_length` (the `len(None)` TypeError
for the head object is caught, keeping the old value), allocate the new
`Line` and cache it; otherwise return the cached object. -/
def lineNext {ε : Type u} (st : ChainSt ε) (r : Nat) : Except Exc (ChainSt ε × Nat) :=
  match st.store[r]? with
  | none => .error (.indexError .plain)
  | some obj =>
    match obj.nextRef with
    | some r' => .ok (st, r')
    | none =>
      .ok (⟨(st.store.set r { obj with nextRef := some st.store.length })
              ++ [⟨(st.src.next).2.1,
                   (match obj.line with
                    | some l => obj.previous_length + l.length
                    | none => obj.previous_length),
                   some (st.src.next).2.2, none⟩],
            (st.src.next).1⟩,
          st.store.length)

/-- C6: chunk-nodes are materialised at most once and then shared.  A first
access to `next` performs exactly one source pull, stores the pulled line at
a fresh address and caches that address on the accessed object; any access
through a set cache returns the cached address with the state (hence the
source) untouched, so in particular the access immediately after a first
access returns the identical just-created `Line` without consuming the
source again. -/
theorem line_next_materialises_once :
    (∀ (ε : Type) (st : ChainSt ε) (r : Nat) (obj : LineObj ε),
      st.store[r]? = some obj → obj.nextRef = none →
      ∃ st' r', lineNext st r = .ok (st', r')
        ∧ st'.src = (st.src.next).1
        ∧ (st'.store[r]?).map LineObj.nextRef = some (some r')
        ∧ (st'.store[r']?).map LineObj.line = some (st.src.next).2.1
        ∧ (st'.store[r']?).map LineObj.location_state = some (some (st.src.next).2.2)
        ∧ lineNext st' r = .ok (st', r'))
    ∧ (∀ (ε : Type) (st : ChainSt ε) (r r' : Nat) (obj : LineObj ε),
      st.store[r]? = some obj → obj.nextRef = some r' →
      lineNext st r = .ok (st, r'))
    ∧ (∀ (ε : Type) (st : ChainSt ε) (l : List ε) (rest : List (List ε)),
      st.src.pending = l :: rest →
      ((st.src.next).1.pending = rest ∧ (st.src.next).2.1 = some l)) := by
  refine ⟨?_, ?_, ?_⟩
  · intro ε st r obj hget hnone
    have hlt : r < st.store.length := (List.getElem?_eq_some.mp hget).1
    refine ⟨⟨(st.store.set r { obj with nextRef := some st.store.length })
        ++ [⟨(st.src.next).2.1,
             (match obj.line with
              | some l => obj.previous_length + l.length
              | none => obj.previous_length),
             some (st.src.next).2.2, none⟩], (st.src.next).1⟩,
      st.store.length, ?_, rfl, ?_, ?_, ?_, ?_⟩
    · simp only [lineNext, hget, hnone]
      rfl
    · rw [List.getElem?_append_left (by simpa using hlt),
        List.getElem?_set_self (by simpa using hlt)]
      rfl
    · rw [List.getElem?_append_right (by simp), List.length_set]
      simp
    · rw [List.getElem?_append_right (by simp), List.length_set]
      simp
    · have hcache : ((st.store.set r { obj with nextRef := some st.store.length })
          ++ [(⟨(st.src.next).2.1,
               (match obj.line with
                | some l => obj.previous_length + l.length
                | none => obj.previous_length),
               some (st.src.next).2.2, none⟩ : LineObj ε)])[r]?
          = some { obj with nextRef := some st.store.length } := by
        rw [List.getElem?_append_left (by simpa using hlt),
          List.getElem?_set_self (by simpa using hlt)]
      simp only [lineNext, hcache]
  · intro ε st r r' obj hget hsome
    simp only [lineNext, hget, hsome]
  · intro ε st l rest hp
    obtain ⟨store, src⟩ := st
    obtain ⟨pending, cc, lc, tl⟩ := src
    simp only at hp
    subst hp
    exact ⟨rfl, rfl⟩

/-- Witness for C6: in a one-line heap with a cached `next` pointer, the
cached reference is returned with the state untouched. -/
theorem line_next_materialises_once_witness :
    (⟨[⟨some ['a'], 0, some (0, 1), some 1⟩,
       ⟨some ['b'], 1, some (1, 2), none⟩],
      ⟨[], 2, 3, none⟩⟩ : ChainSt Char).store[0]?
      = some ⟨some ['a'], 0, some (0, 1), some 1⟩
    ∧ lineNext (⟨[⟨some ['a'], 0, some (0, 1), some 1⟩,
       ⟨some ['b'], 1, some (1, 2), none⟩],
      ⟨[], 2, 3, none⟩⟩ : ChainSt Char) 0
      = .ok (⟨[⟨some ['a'], 0, some (0, 1), some 1⟩,
          ⟨some ['b'], 1, some (1, 2), none⟩],
         ⟨[], 2, 3, none⟩⟩, 1) := by
  refine ⟨rfl, ?_⟩
  exact line_next_materialises_once.2.1 Char
    (⟨[⟨some ['a'], 0, some (0, 1), some 1⟩,
       ⟨some ['b'], 1, some (1, 2), none⟩],
      ⟨[], 2, 3, none⟩⟩ : ChainSt Char) 0 1
    ⟨some ['a'], 0, some (0, 1), some 1⟩ rfl rfl

/-! ## Delegated locations for transformed streams
(`BaseDelegateSource.location`, `BaseTransformedSource.__next__`) -/

/-- A location tuple: line number, line offset, character offset, current
line, source description. -/
def Loc (ε : Type u) : Type u :=
  Int × Int × Int × Option (List ε) × Option String

/-- Model of `StreamView.location` over a `LineSource` chain:
`(line_count, offset, character_count + offset, line, str(source))`, with the
`(-1, -1)` location state for lines past the end. -/
def StreamView.location {ε : Type u} (s : StreamView ε) : Loc ε :=
  ((s.line.locState).2, (s.offset : Int), (s.line.locState).1 + (s.offset : Int),
    s.line.data, some s.line.chain.desc)

/-- Model of `BaseDelegateSource.location(offset, line, location_state)`: when the
recorded `location_state` (the original stream at the element that produced
the current item) is truthy, shift it by the in-line offset and delegate;
otherwise `(-1, -1, -1, None, None)`.  The shift `location_state[offset:]`
can itself raise, hence `Except`. -/
def delegateLocation {ε : Type u} (off : Nat) (locst : Option (StreamView ε)) :
    Except Exc (Loc ε) :=
  match locst with
  | some sv =>
    if sv.truthy then (sv.sliceFrom off).map StreamView.location
    else .ok (-1, -1, -1, none, none)
  | none => .ok (-1, -1, -1, none, none)

/-- The state of a `BaseTransformedSource`: the transform, the remaining
original stream, the produced-item count, and `self.__state =
(stream_before, transformed)`. -/
structure TransSt (ε ι : Type u) where
  transform : ε → List ι
  stream : StreamView ε
  length : Nat
  stream_before : Option (StreamView ε)
  transformed : List ι
  total_length : Option Nat

/-- Result of the production loop in `BaseTransformedSource.__next__`. -/
inductive LoopRes (ε ι : Type u) where
  | fuelOut
  | raised (e : Exc)
  | finished (sb : Option (StreamView ε)) (td : List ι) (st : StreamView ε)

/-- The loop `while not transformed and self.__stream: stream_before =
stream; transformed = transform(stream[0]); stream = stream[1:]`, with fuel
(the loop consumes one original element per iteration). -/
def transLoop {ε ι : Type u} (tr : ε → List ι) :
    Nat → Option (StreamView ε) → List ι → StreamView ε → LoopRes ε ι
  | 0, sb, td, st =>
    if td.isEmpty = true ∧ st.truthy = true then .fuelOut
    else .finished sb td st
  | f + 1, sb, td, st =>
    if td.isEmpty = true ∧ st.truthy = true then
      match st.item 0 with
      | .error e => .raised e
      | .ok e =>
        match st.sliceFrom 1 with
        | .error ex => .raised ex
        | .ok st' => transLoop tr f (some st) (tr e) st'
    else .finished sb td st

/-- Model of `BaseTransformedSource.__next__`: run the loop, then either emit
`(item, stream_before)` popping one transformed item, or record
`total_length` and emit `(None, None)` at exhaustion (leaving `self.__state`
untouched). -/
def transNext {ε ι : Type u} (fuel : Nat) (t : TransSt ε ι) :
    Option (Except Exc (TransSt ε ι × (Option ι × Option (StreamView ε)))) :=
  match transLoop t.transform fuel t.stream_before t.transformed t.stream with
  | .fuelOut => none
  | .raised e => some (.error e)
  | .finished sb td st =>
    match td with
    | item :: rest =>
      some (.ok ({ t with
                    stream := st
                    stream_before := sb
                    transformed := rest
                    length := t.length + 1 }, (some item, sb)))
    | [] =>
      some (.ok ({ t with stream := st, total_length := some t.length },
                 (none, none)))

/-- Invariant of the transformed-source state: pending transformed items all
come from the element at the head of the recorded original position. -/
def TransInv {ε ι : Type u} (t : TransSt ε ι) : Prop :=
  t.transformed ≠ [] → ∃ sv e, t.stream_before = some sv ∧ sv.truthy = true
    ∧ sv.item 0 = .ok e ∧ t.transformed.IsSuffix (t.transform e)

/-- The production loop when it finishes preserves the invariant: the pending
items it leaves always come from the head element of the recorded original
position. -/
theorem transLoop_inv {ε ι : Type u} (tr : ε → List ι) (fuel : Nat) :
    ∀ (sb : Option (StreamView ε)) (td : List ι) (st : StreamView ε)
      (sb' : Option (StreamView ε)) (td' : List ι) (st' : StreamView ε),
    transLoop tr fuel sb td st = .finished sb' td' st' →
    (td ≠ [] → ∃ sv e, sb = some sv ∧ sv.truthy = true ∧ sv.item 0 = .ok e
        ∧ td.IsSuffix (tr e)) →
    (td' ≠ [] → ∃ sv e, sb' = some sv ∧ sv.truthy = true ∧ sv.item 0 = .ok e
        ∧ td'.IsSuffix (tr e)) := by
  induction fuel with
  | zero =>
    intro sb td st sb' td' st' hrun hinv
    unfold transLoop at hrun
    by_cases hg : td.isEmpty = true ∧ st.truthy = true
    · rw [if_pos hg] at hrun
      exact absurd hrun (by simp)
    · rw [if_neg hg] at hrun
      cases hrun
      exact hinv
  | succ f ih =>
    intro sb td st sb' td' st' hrun hinv
    unfold transLoop at hrun
    by_cases hg : td.isEmpty = true ∧ st.truthy = true
    · rw [if_pos hg] at hrun
      cases hi : st.item 0 with
      | error e =>
        rw [hi] at hrun
        exact absurd hrun (by simp)
      | ok e =>
        rw [hi] at hrun
        cases hs : st.sliceFrom 1 with
        | error ex =>
          rw [hs] at hrun
          exact absurd hrun (by simp)
        | ok st2 =>
          rw [hs] at hrun
          refine ih (some st) (tr e) st2 sb' td' st' hrun ?_
          intro _
          exact ⟨st, e, rfl, hg.2, hi, List.suffix_refl (tr e)⟩
    · rw [if_neg hg] at hrun
      cases hrun
      exact hinv

/-- C7: derived (transformed) positions report original-source coordinates —
the delegate location of a derived position is the location of the recorded
original position shifted by the in-line offset; a falsy location state
(past the end of the data) reports `(-1, -1, -1, None, None)`; and whenever
`__next__` produces an item, the recorded original position is truthy and the
item comes from the transform of the element at `stream_before[0]`, so the
delegated location is that element's original coordinates. -/
theorem derived_location_reports_original_coordinates :
    (∀ (ε : Type) (off : Nat) (sv : StreamView ε), sv.truthy = true →
        delegateLocation off (some sv) = (sv.sliceFrom off).map StreamView.location)
    ∧ (∀ (ε : Type) (off : Nat) (sv : StreamView ε), sv.truthy = false →
        delegateLocation off (some sv) = .ok (-1, -1, -1, none, none))
    ∧ (∀ (ε : Type) (off : Nat),
        delegateLocation (ε := ε) off none = .ok (-1, -1, -1, none, none))
    ∧ (∀ (ε ι : Type) (fuel : Nat) (t t' : TransSt ε ι) (item : ι)
          (sb : StreamView ε),
        transNext fuel t = some (.ok (t', (some item, some sb))) →
        TransInv t →
        (sb.truthy = true
          ∧ (∃ (e : ε) (k : Nat), sb.item 0 = .ok e ∧ (t.transform e)[k]? = some item)
          ∧ TransInv t')) := by
  refine ⟨?_, ?_, ?_, ?_⟩
  · intro ε off sv htr
    simp only [delegateLocation]
    rw [if_pos htr]
  · intro ε off sv htr
    simp only [delegateLocation]
    rw [htr]
    simp
  · intro ε off
    rfl
  · intro ε ι fuel t t' item sb hrun hinv
    unfold transNext at hrun
    cases hloop : transLoop t.transform fuel t.stream_before t.transformed t.stream with
    | fuelOut =>
      rw [hloop] at hrun
      exact absurd hrun (by simp)
    | raised e =>
      rw [hloop] at hrun
      exact absurd hrun (by simp)
    | finished sb0 td0 st0 =>
      rw [hloop] at hrun
      cases td0 with
      | nil =>
        exact absurd hrun (by simp)
      | cons it0 rest0 =>
        simp only [Option.some.injEq, Except.ok.injEq, Prod.mk.injEq] at hrun
        obtain ⟨ht', hitem, hsb⟩ := hrun
        obtain ⟨sv, e, hsbeq, htru, hoke, hsuff⟩ :=
          transLoop_inv t.transform fuel t.stream_before t.transformed t.stream
            sb0 (it0 :: rest0) st0 hloop hinv (by simp)
        have hsv : sv = sb := by
          rw [hsbeq] at hsb
          exact Option.some.inj hsb
        subst hsv
        have hsuff' := hsuff
        obtain ⟨pre, hpre⟩ := hsuff
        refine ⟨htru, ⟨e, pre.length, hoke, ?_⟩, ?_⟩
        · rw [← hpre, List.getElem?_append_right (Nat.le_refl pre.length)]
          simp [hitem]
        · rw [← ht']
          intro hne
          exact ⟨sv, e, hsb, htru, hoke,
            List.IsSuffix.trans (List.suffix_cons it0 rest0) hsuff'⟩

/-- Witness for C7: delegation at a concrete truthy recorded position
reports the shifted original location. -/
theorem derived_location_reports_original_coordinates_witness :
    (⟨⟨⟨0, [['a', 'b']], "str"⟩, 0⟩, 0⟩ : StreamView Char).truthy = true
    ∧ delegateLocation 0 (some (⟨⟨⟨0, [['a', 'b']], "str"⟩, 0⟩, 0⟩ : StreamView Char))
      = ((⟨⟨⟨0, [['a', 'b']], "str"⟩, 0⟩, 0⟩ : StreamView Char).sliceFrom 0).map
          StreamView.location := by
  refine ⟨rfl, ?_⟩
  exact derived_location_reports_original_coordinates.1 Char 0
    (⟨⟨⟨0, [['a', 'b']], "str"⟩, 0⟩, 0⟩ : StreamView Char) rfl

/-! ## The trampoline scheduler (`lepl/parser.py`, `lepl/monitor.py`)

Python generators are embedded as resumable step functions: resuming a
generator (with `next`, `send(v)` or `throw(e)`) either yields a value (a
sub-generator or an ordinary value) together with the generator's advanced
state, or raises; a generator that has raised is finished and raises
StopIteration forever after (`PyGen.done`).  The scheduler's `value`
register holds a generator, an ordinary value, or an in-flight exception
(Python's separate `exception` flag is `true` exactly when the register
holds the exception set by the loop's handler, so the register encodes
both). -/

/-- A resumption of a generator: `next(g)`, `g.send(v)`, or `g.throw(e)`. -/
inductive Resume (α : Type u) where
  | nxt
  | send (a : α)
  | thrw (e : Exc)

/-- An embedded Python generator over ordinary-value type `α`. -/
inductive PyGen (α : Type u) : Type u where
  | mk (step : Resume α → Except Exc ((PyGen α ⊕ α) × PyGen α))
  | done

/-- Resume a generator: `done` (finished) raises StopIteration forever; a
live generator either yields (value, advanced state) or raises and is
finished. -/
def PyGen.run {α : Type u} : PyGen α → Resume α → Except Exc (PyGen α ⊕ α) × PyGen α
  | .done, _ => (.error .stopIteration, .done)
  | .mk f, r =>
    match f r with
    | .ok (v, k) => (.ok v, k)
    | .error e => (.error e, .done)

/-- The scheduler's `value` register. -/
inductive Reg (α : Type u) where
  | gen (g : PyGen α)
  | val (a : α)
  | exc (e : Exc)

/-- Lift a yielded value into the register. -/
def regOfSum {α : Type u} : PyGen α ⊕ α → Reg α
  | .inl g => .gen g
  | .inr a => .val a

/-- The scheduler state: the explicit frame stack (head = top, i.e. the end
of the Python list), the value register, and the epoch counter. -/
structure TState (α : Type u) where
  stack : List (PyGen α)
  register : Reg α
  epoch : Nat

/-- An argument passed to a monitor callback. -/
inductive MArg (α : Type u) where
  | num (n : Nat)
  | rg (r : Reg α)
  | gn (g : PyGen α)
  | stk (l : List (PyGen α))
  | flag (b : Bool)

/-- A Python method as the trampoline calls it: a declared parameter count
(`self` excluded) and a body over the monitor's own state that may raise.
Calling it with a different number of arguments raises TypeError before the
body runs — Python's calling convention. -/
structure PyMethod (σ α : Type u) where
  arity : Nat
  body : σ → List (MArg α) → σ × Option Exc

/-- Invoke a method: arity mismatch raises TypeError, otherwise the body
runs. -/
def PyMethod.call {σ α : Type u} (f : PyMethod σ α) (st : σ) (args : List (MArg α)) :
    σ × Option Exc :=
  if args.length = f.arity then f.body st args else (st, some .typeError)

/-- The observer interface as `trampoline` invokes it (`lepl/monitor.py`). -/
structure Mon (σ α : Type u) where
  next_iteration : PyMethod σ α
  push : PyMethod σ α
  before_next : PyMethod σ α
  after_next : PyMethod σ α
  pop : PyMethod σ α
  before_throw : PyMethod σ α
  after_throw : PyMethod σ α
  before_send : PyMethod σ α
  after_send : PyMethod σ α
  raise_ : PyMethod σ α
  yield_ : PyMethod σ α
  exception : PyMethod σ α

/-- Monitor notifications emitted during one loop iteration (recorded even
when the call itself raises). -/
inductive MEvent (α : Type u) where
  | nextIterationEv
  | pushEv (g : PyGen α)
  | beforeNextEv
  | afterNextEv
  | popEv (g : PyGen α)
  | beforeThrowEv
  | afterThrowEv
  | beforeSendEv
  | afterSendEv
  | raiseEv
  | yieldEv
  | exceptionEv

/-- Make one monitor call if a monitor is attached, recording the event. -/
def mcall {σ α : Type u} (mon : Option (Mon σ α)) (sel : Mon σ α → PyMethod σ α)
    (ev : MEvent α) (mst : σ) (args : List (MArg α)) :
    σ × List (MEvent α) × Option Exc :=
  match mon with
  | none => (mst, [], none)
  | some m =>
    ((sel m).call mst args |>.1, [ev], ((sel m).call mst args).2)

/-- Outcome of one iteration of the `while True` loop: continue with a new
state, suspend yielding a value to the caller, or propagate an exception to
the caller. -/
inductive StepOut (σ α : Type u) where
  | cont (s : TState α) (mst : σ) (evs : List (MEvent α))
  | yieldOut (a : α) (s : TState α) (mst : σ) (evs : List (MEvent α))
  | raiseOut (e : Exc) (mst : σ) (evs : List (MEvent α))

/-- The loop's `except Exception` handler: with the `exception` flag already
set the exception re-raises to the caller; otherwise the register takes the
exception, the flag is set, and `monitor.exception` is notified (that call
itself raising propagates out, as it happens inside the handler). -/
def handler {σ α : Type u} (mon : Option (Mon σ α)) (mst : σ)
    (evs : List (MEvent α)) (stack : List (PyGen α)) (ep : Nat) (flag : Bool)
    (e : Exc) : StepOut σ α :=
  if flag then .raiseOut e mst evs
  else
    match mcall mon (·.exception) .exceptionEv mst [.rg (.exc e)] with
    | (m2, e2, some e3) => .raiseOut e3 m2 (evs ++ e2)
    | (m2, e2, none) => .cont ⟨stack, .exc e, ep⟩ m2 (evs ++ e2)

/-- The pop half of an iteration (`value` is not a generator): pop the top
frame; with frames left, throw (when the register holds an in-flight
exception) or send (an ordinary value) into the new top; with the stack
emptied, re-raise the exception to the caller or yield the value.  After a
yield, `value = main`: the bottom frame is always the current state of the
main generator object, so the just-popped frame is what resumes (see
`trampoline`'s `value = main`). -/
def popBranch {σ α : Type u} (mon : Option (Mon σ α)) (mst : σ)
    (evs : List (MEvent α)) (stack : List (PyGen α)) (ep : Nat)
    (x : Exc ⊕ α) : StepOut σ α :=
  match stack with
  | [] => handler mon mst evs [] ep x.isLeft (.indexError .plain)
  | top :: rest =>
    match mcall mon (·.pop) (.popEv top) mst [.gn top] with
    | (m1, e1, some e) => handler mon m1 (evs ++ e1) rest ep x.isLeft e
    | (m1, e1, none) =>
      match rest with
      | next1 :: rtail =>
        match x with
        | .inl e =>
          match mcall mon (·.before_throw) .beforeThrowEv m1
              [.gn next1, .rg (.exc e)] with
          | (m2, e2, some e3) => handler mon m2 (evs ++ e1 ++ e2) rest ep false e3
          | (m2, e2, none) =>
            match next1.run (.thrw e) with
            | (.error e3, k) => handler mon m2 (evs ++ e1 ++ e2) (k :: rtail) ep false e3
            | (.ok v, k) =>
              match mcall mon (·.after_throw) .afterThrowEv m2 [.rg (regOfSum v)] with
              | (m3, e3, some e4) =>
                handler mon m3 (evs ++ e1 ++ e2 ++ e3) (k :: rtail) ep false e4
              | (m3, e3, none) =>
                .cont ⟨k :: rtail, regOfSum v, ep⟩ m3 (evs ++ e1 ++ e2 ++ e3)
        | .inr a =>
          match mcall mon (·.before_send) .beforeSendEv m1
              [.gn next1, .rg (.val a)] with
          | (m2, e2, some e3) => handler mon m2 (evs ++ e1 ++ e2) rest ep false e3
          | (m2, e2, none) =>
            match next1.run (.send a) with
            | (.error e3, k) => handler mon m2 (evs ++ e1 ++ e2) (k :: rtail) ep false e3
            | (.ok v, k) =>
              match mcall mon (·.after_send) .afterSendEv m2 [.rg (regOfSum v)] with
              | (m3, e3, some e4) =>
                handler mon m3 (evs ++ e1 ++ e2 ++ e3) (k :: rtail) ep false e4
              | (m3, e3, none) =>
                .cont ⟨k :: rtail, regOfSum v, ep⟩ m3 (evs ++ e1 ++ e2 ++ e3)
      | [] =>
        match x with
        | .inl e =>
          match mcall mon (·.raise_) .raiseEv m1 [.rg (.exc e)] with
          | (m2, e2, some e3) => .raiseOut e3 m2 (evs ++ e1 ++ e2)
          | (m2, e2, none) => .raiseOut e m2 (evs ++ e1 ++ e2)
        | .inr a =>
          match mcall mon (·.yield_) .yieldEv m1 [.rg (.val a)] with
          | (m2, e2, some e3) => handler mon m2 (evs ++ e1 ++ e2) [] ep false e3
          | (m2, e2, none) => .yieldOut a ⟨[], .gen top, ep⟩ m2 (evs ++ e1 ++ e2)

/-- One iteration of `trampoline`'s `while True` loop.  The epoch increments,
`monitor.next_iteration(epoch, value, exception, stack)` is called (four
arguments), then either the push half (the register holds a generator: push
it and `next` it) or the pop half runs; every raise inside the `try` body is
routed through `handler` with the `exception` flag's value at that point. -/
def trampolineStep {σ α : Type u} (mon : Option (Mon σ α)) (mst : σ)
    (s : TState α) : StepOut σ α :=
  match mcall mon (·.next_iteration) .nextIterationEv mst
      [.num (s.epoch + 1), .rg s.register,
       .flag (match s.register with | .exc _ => true | _ => false),
       .stk s.stack] with
  | (m0, e0, some e) =>
    handler mon m0 e0 s.stack (s.epoch + 1)
      (match s.register with | .exc _ => true | _ => false) e
  | (m0, e0, none) =>
    match s.register with
    | .gen g =>
      match mcall mon (·.push) (.pushEv g) m0 [.rg (.gen g)] with
      | (m1, e1, some e) => handler mon m1 (e0 ++ e1) s.stack (s.epoch + 1) false e
      | (m1, e1, none) =>
        match mcall mon (·.before_next) .beforeNextEv m1 [.rg (.gen g)] with
        | (m2, e2, some e) =>
          handler mon m2 (e0 ++ e1 ++ e2) (g :: s.stack) (s.epoch + 1) false e
        | (m2, e2, none) =>
          match g.run .nxt with
          | (.error e, k) =>
            handler mon m2 (e0 ++ e1 ++ e2) (k :: s.stack) (s.epoch + 1) false e
          | (.ok v, k) =>
            match mcall mon (·.after_next) .afterNextEv m2 [.rg (regOfSum v)] with
            | (m3, e3, some e) =>
              handler mon m3 (e0 ++ e1 ++ e2 ++ e3) (k :: s.stack) (s.epoch + 1) false e
            | (m3, e3, none) =>
              .cont ⟨k :: s.stack, regOfSum v, s.epoch + 1⟩ m3 (e0 ++ e1 ++ e2 ++ e3)
    | .val a => popBranch mon m0 e0 s.stack (s.epoch + 1) (.inr a)
    | .exc e => popBranch mon m0 e0 s.stack (s.epoch + 1) (.inl e)

/-- C1: during the scheduler loop, an in-flight exception with frames below
pops exactly one frame and is delivered into the new top frame as a
thrown-value resumption (`throw`); an exception whose pop empties the stack
is re-raised to the caller of the parse; and a generator raising during a
`send` is caught into the exception register with only the single normal pop
having happened — so no iteration unwinds more than one frame. -/
theorem trampoline_unwinds_exactly_one_frame :
    ∀ (α : Type) (t g' : PyGen α) (rest : List (PyGen α)) (e : Exc) (a : α)
      (ep : Nat),
    (trampolineStep (σ := Unit) none () ⟨t :: g' :: rest, .exc e, ep⟩
        = match g'.run (.thrw e) with
          | (.ok v, k) => .cont ⟨k :: rest, regOfSum v, ep + 1⟩ () []
          | (.error e2, k) => .cont ⟨k :: rest, .exc e2, ep + 1⟩ () [])
    ∧ (trampolineStep (σ := Unit) none () ⟨[t], .exc e, ep⟩ = .raiseOut e () [])
    ∧ (trampolineStep (σ := Unit) none () ⟨t :: g' :: rest, .val a, ep⟩
        = match g'.run (.send a) with
          | (.ok v, k) => .cont ⟨k :: rest, regOfSum v, ep + 1⟩ () []
          | (.error e2, k) => .cont ⟨k :: rest, .exc e2, ep + 1⟩ () []) := by
  intro α t g' rest e a ep
  refine ⟨?_, ?_, ?_⟩
  · show popBranch none () [] (t :: g' :: rest) (ep + 1) (.inl e) = _
    simp only [popBranch, mcall, handler]
    rcases hr : g'.run (.thrw e) with ⟨res, k⟩
    cases res with
    | ok v => rfl
    | error e2 => rfl
  · rfl
  · show popBranch none () [] (t :: g' :: rest) (ep + 1) (.inr a) = _
    simp only [popBranch, mcall, handler]
    rcases hr : g'.run (.send a) with ⟨res, k⟩
    cases res with
    | ok v => rfl
    | error e2 => rfl

/-- A monitor method conforming to the scheduler's call: declared with the
parameter count the trampoline passes, and never raising. -/
def PyMethod.benign {σ α : Type u} (f : PyMethod σ α) (n : Nat) : Prop :=
  f.arity = n ∧ ∀ st args, (f.body st args).2 = none

/-- A well-behaved observer: every callback accepts the trampoline's call
(arity as called, including the four-argument `next_iteration`) and returns
normally. -/
def Mon.Benign {σ α : Type u} (m : Mon σ α) : Prop :=
  m.next_iteration.benign 4 ∧ m.push.benign 1 ∧ m.before_next.benign 1
  ∧ m.after_next.benign 1 ∧ m.pop.benign 1 ∧ m.before_throw.benign 2
  ∧ m.after_throw.benign 1 ∧ m.before_send.benign 2 ∧ m.after_send.benign 1
  ∧ m.raise_.benign 1 ∧ m.yield_.benign 1 ∧ m.exception.benign 1

/-- A step outcome with the monitor's private state erased (scheduler state,
yielded/raised value and emitted notifications only). -/
inductive CoreOut (α : Type u) where
  | cont (s : TState α) (evs : List (MEvent α))
  | yieldOut (a : α) (s : TState α) (evs : List (MEvent α))
  | raiseOut (e : Exc) (evs : List (MEvent α))

/-- Erase the monitor state from a step outcome. -/
def StepOut.core {σ α : Type u} : StepOut σ α → CoreOut α
  | .cont s _ evs => .cont s evs
  | .yieldOut a s _ evs => .yieldOut a s evs
  | .raiseOut e _ evs => .raiseOut e evs

/-- C9: stack discipline of the scheduler loop.  With a well-behaved monitor
attached, every iteration that completes without raising changes the frame
stack's depth by exactly one: it pushes exactly one frame when the value
register holds a generator (emitting exactly one `push` notification and no
`pop`), and pops exactly one frame otherwise (emitting exactly one `pop`
notification and no `push`), whether the popped value is sent onward,
thrown onward, or yielded to the caller. -/
theorem trampoline_stack_discipline :
    ∀ (σ α : Type) (m : Mon σ α), Mon.Benign m → ∀ (mst : σ) (s : TState α),
    (∀ g v k, s.register = .gen g → g.run .nxt = (.ok v, k) →
      (trampolineStep (some m) mst s).core
        = .cont ⟨k :: s.stack, regOfSum v, s.epoch + 1⟩
            [.nextIterationEv, .pushEv g, .beforeNextEv, .afterNextEv])
    ∧ (∀ a top next1 rtail v k, s.register = .val a →
      s.stack = top :: next1 :: rtail → next1.run (.send a) = (.ok v, k) →
      (trampolineStep (some m) mst s).core
        = .cont ⟨k :: rtail, regOfSum v, s.epoch + 1⟩
            [.nextIterationEv, .popEv top, .beforeSendEv, .afterSendEv])
    ∧ (∀ e top next1 rtail v k, s.register = .exc e →
      s.stack = top :: next1 :: rtail → next1.run (.thrw e) = (.ok v, k) →
      (trampolineStep (some m) mst s).core
        = .cont ⟨k :: rtail, regOfSum v, s.epoch + 1⟩
            [.nextIterationEv, .popEv top, .beforeThrowEv, .afterThrowEv])
    ∧ (∀ a top, s.register = .val a → s.stack = [top] →
      (trampolineStep (some m) mst s).core
        = .yieldOut a ⟨[], .gen top, s.epoch + 1⟩
            [.nextIterationEv, .popEv top, .yieldEv]) := by
  intro σ α m hB mst s
  obtain ⟨hB1, hB2, hB3, hB4, hB5, hB6, hB7, hB8, hB9, hB10, hB11, hB12⟩ := hB
  obtain ⟨stk, reg, ep⟩ := s
  refine ⟨?_, ?_, ?_, ?_⟩
  · intro g v k hreg hrun
    simp only at hreg
    subst hreg
    simp only [trampolineStep, mcall, PyMethod.call, List.length_cons,
      List.length_nil, if_true, hB1.1, hB1.2, hB2.1, hB2.2, hB3.1, hB3.2, hB4.1, hB4.2,
      hrun, StepOut.core]
    rfl
  · intro a top next1 rtail v k hreg hstk hrun
    simp only at hreg hstk
    subst hreg
    subst hstk
    simp only [trampolineStep, mcall, PyMethod.call, List.length_cons,
      List.length_nil, if_true, hB1.1, hB1.2, hB5.1, hB5.2, hB8.1, hB8.2, hB9.1, hB9.2,
      popBranch, hrun, StepOut.core]
    rfl
  · intro e top next1 rtail v k hreg hstk hrun
    simp only at hreg hstk
    subst hreg
    subst hstk
    simp only [trampolineStep, mcall, PyMethod.call, List.length_cons,
      List.length_nil, if_true, hB1.1, hB1.2, hB5.1, hB5.2, hB6.1, hB6.2, hB7.1, hB7.2,
      popBranch, hrun, StepOut.core]
    rfl
  · intro a top hreg hstk
    simp only at hreg hstk
    subst hreg
    subst hstk
    simp only [trampolineStep, mcall, PyMethod.call, List.length_cons,
      List.length_nil, if_true, hB1.1, hB1.2, hB5.1, hB5.2, hB11.1, hB11.2, popBranch,
      StepOut.core]
    rfl

/-- A trivial conforming observer: the arities the trampoline calls with,
no state, never raises. -/
def passMon : Mon Unit Nat :=
  ⟨⟨4, fun s _ => (s, none)⟩, ⟨1, fun s _ => (s, none)⟩, ⟨1, fun s _ => (s, none)⟩,
   ⟨1, fun s _ => (s, none)⟩, ⟨1, fun s _ => (s, none)⟩, ⟨2, fun s _ => (s, none)⟩,
   ⟨1, fun s _ => (s, none)⟩, ⟨2, fun s _ => (s, none)⟩, ⟨1, fun s _ => (s, none)⟩,
   ⟨1, fun s _ => (s, none)⟩, ⟨1, fun s _ => (s, none)⟩, ⟨1, fun s _ => (s, none)⟩⟩

theorem passMon_benign : Mon.Benign passMon :=
  ⟨⟨rfl, fun _ _ => rfl⟩, ⟨rfl, fun _ _ => rfl⟩, ⟨rfl, fun _ _ => rfl⟩,
   ⟨rfl, fun _ _ => rfl⟩, ⟨rfl, fun _ _ => rfl⟩, ⟨rfl, fun _ _ => rfl⟩,
   ⟨rfl, fun _ _ => rfl⟩, ⟨rfl, fun _ _ => rfl⟩, ⟨rfl, fun _ _ => rfl⟩,
   ⟨rfl, fun _ _ => rfl⟩, ⟨rfl, fun _ _ => rfl⟩, ⟨rfl, fun _ _ => rfl⟩⟩

/-- Witness for C9 at a concrete state: a yield iteration pops exactly one
frame and emits exactly one pop notification. -/
theorem trampoline_stack_discipline_witness :
    ((⟨[PyGen.done], Reg.val 5, 0⟩ : TState Nat).register = Reg.val 5)
    ∧ ((⟨[PyGen.done], Reg.val 5, 0⟩ : TState Nat).stack = [PyGen.done])
    ∧ (trampolineStep (some passMon) () (⟨[PyGen.done], Reg.val 5, 0⟩ : TState Nat)).core
      = .yieldOut 5 ⟨[], .gen .done, 1⟩
          [.nextIterationEv, .popEv .done, .yieldEv] := by
  refine ⟨rfl, rfl, ?_⟩
  exact (trampoline_stack_discipline Unit Nat passMon passMon_benign ()
    ⟨[PyGen.done], Reg.val 5, 0⟩).2.2.2 5 PyGen.done rfl rfl

/-- The `MonitorInterface` of `lepl/monitor.py` as the trampoline sees it:
every callback body just passes, with the parameter counts declared in the
source — in particular `next_iteration(self, value, exception, stack)`
declares three parameters while `trampoline` calls it with four
(`epoch, value, exception, stack`). -/
def defaultMonitorInterface (α : Type u) : Mon PUnit.{u + 1} α :=
  ⟨⟨3, fun s _ => (s, none)⟩, ⟨1, fun s _ => (s, none)⟩, ⟨1, fun s _ => (s, none)⟩,
   ⟨1, fun s _ => (s, none)⟩, ⟨1, fun s _ => (s, none)⟩, ⟨2, fun s _ => (s, none)⟩,
   ⟨1, fun s _ => (s, none)⟩, ⟨2, fun s _ => (s, none)⟩, ⟨1, fun s _ => (s, none)⟩,
   ⟨1, fun s _ => (s, none)⟩, ⟨1, fun s _ => (s, none)⟩, ⟨1, fun s _ => (s, none)⟩⟩

/-- Run the trampoline with fuel, collecting the values it yields to the
caller and the exception (if any) that ends the run. -/
def collectM {σ α : Type u} (mon : Option (Mon σ α)) :
    Nat → σ → TState α → List α × Option Exc
  | 0, _, _ => ([], none)
  | f + 1, mst, s =>
    match trampolineStep mon mst s with
    | .cont s' m' _ => collectM mon f m' s'
    | .yieldOut a s' m' _ =>
      ((a :: (collectM mon f m' s').1), (collectM mon f m' s').2)
    | .raiseOut e _ _ => ([], some e)

/-- The initial scheduler state: `value = main` with an empty stack. -/
def initState {α : Type u} (g : PyGen α) : TState α := ⟨[], .gen g, 0⟩

/-- A main generator yielding a single result value. -/
def mainOne : PyGen Nat := .mk (fun _ => .ok (.inr 42, .done))

/-- C2 (code bug): attaching a default `MonitorInterface` changes parse
outcomes.  The unmonitored run of a one-result main yields `[42]` and ends
in StopIteration; the same run with `monitor=MonitorInterface()` yields
nothing and raises TypeError to the caller, because `trampoline` calls
`monitor.next_iteration(epoch, value, exception, stack)` with four arguments
while `MonitorInterface.next_iteration` accepts only three. -/
theorem monitorInterface_changes_outcomes :
    collectM (σ := PUnit) none 10 ⟨⟩ (initState mainOne)
      = ([42], some .stopIteration)
    ∧ collectM (some (defaultMonitorInterface Nat)) 10 ⟨⟩ (initState mainOne)
      = ([], some .typeError) :=
  ⟨rfl, rfl⟩

/-- Result of one pull (`next()`) on the lazy result generator. -/
inductive PullRes (α : Type u) where
  | yielded (a : α) (s : TState α)
  | raised (e : Exc)
  | fuelOut

/-- One pull on the lazy result generator: run scheduler iterations until
the trampoline yields a value (with its resumption state), raises, or the
fuel runs out. -/
def pullNext {α : Type u} : Nat → TState α → PullRes α
  | 0, _ => .fuelOut
  | f + 1, s =>
    match trampolineStep (σ := PUnit) none ⟨⟩ s with
    | .cont s' _ _ => pullNext f s'
    | .yieldOut a s' _ _ => .yielded a s'
    | .raiseOut e _ _ => .raised e

/-- Model of `make_parser`'s `single` function: `next(matcher(arg))[0]`, catching
StopIteration as `None`; other exceptions propagate.  The result is `none`
only when the fuel runs out (no Python counterpart). -/
def singleParse {β γ : Type u} (fuel : Nat) (g : PyGen (β × γ)) :
    Option (Except Exc (Option β)) :=
  match pullNext fuel (initState g) with
  | .yielded (b, _) _ => some (.ok (some b))
  | .raised .stopIteration => some (.ok none)
  | .raised e => some (.error e)
  | .fuelOut => none

theorem pullNext_head {α : Type u} :
    ∀ (f : Nat) (s : TState α) (a : α) (s' : TState α),
    pullNext f s = .yielded a s' →
    (collectM (σ := PUnit) none f ⟨⟩ s).1.head? = some a := by
  intro f
  induction f with
  | zero =>
    intro s a s' h
    exact absurd h (by simp [pullNext])
  | succ f ih =>
    intro s a s' h
    unfold pullNext at h
    unfold collectM
    cases hstep : trampolineStep (σ := PUnit) none ⟨⟩ s with
    | cont s2 m2 evs =>
      rw [hstep] at h
      exact ih s2 a s' h
    | yieldOut b s2 m2 evs =>
      rw [hstep] at h
      cases h
      rfl
    | raiseOut e m2 evs =>
      rw [hstep] at h
      exact absurd h (by simp)

theorem pullNext_raised {α : Type u} :
    ∀ (f : Nat) (s : TState α) (e : Exc),
    pullNext f s = .raised e →
    collectM (σ := PUnit) none f ⟨⟩ s = ([], some e) := by
  intro f
  induction f with
  | zero =>
    intro s e h
    exact absurd h (by simp [pullNext])
  | succ f ih =>
    intro s e h
    unfold pullNext at h
    unfold collectM
    cases hstep : trampolineStep (σ := PUnit) none ⟨⟩ s with
    | cont s2 m2 evs =>
      rw [hstep] at h
      exact ih s2 e h
    | yieldOut b s2 m2 evs =>
      rw [hstep] at h
      exact absurd h (by simp)
    | raiseOut e2 m2 evs =>
      rw [hstep] at h
      cases h
      rfl

theorem pullNext_mono {α : Type u} :
    ∀ (f : Nat) (s : TState α), pullNext f s ≠ .fuelOut →
    ∀ f', f ≤ f' → pullNext f' s = pullNext f s := by
  intro f
  induction f with
  | zero =>
    intro s h
    exact absurd rfl h
  | succ f ih =>
    intro s h f' hle
    obtain ⟨f2, rfl⟩ : ∃ f2, f' = f2 + 1 := ⟨f' - 1, by omega⟩
    unfold pullNext at h ⊢
    cases hstep : trampolineStep (σ := PUnit) none ⟨⟩ s with
    | cont s2 m2 evs =>
      rw [hstep] at h
      exact ih s2 h f2 (by omega)
    | yieldOut b s2 m2 evs => rfl
    | raiseOut e m2 evs => rfl

/-- C4: the single-parse wrapper pulls exactly one result.  Whenever the
first pull of the lazy result sequence yields a `(values, stream)` pair,
`single` returns exactly the matched-values component, and that pair heads
the fully collected sequence; when the first pull ends in StopIteration,
`single` returns `None` and the collected sequence is empty; and once the
first pull is decided, any additional fuel leaves `single`'s answer
unchanged — the rest of the sequence is never pulled. -/
theorem single_parse_pulls_exactly_one_result :
    ∀ (β γ : Type) (g : PyGen (β × γ)) (fuel : Nat),
    (∀ b c s', pullNext fuel (initState g) = .yielded (b, c) s' →
      singleParse fuel g = some (.ok (some b))
      ∧ (collectM (σ := PUnit) none fuel ⟨⟩ (initState g)).1.head? = some (b, c))
    ∧ (pullNext fuel (initState g) = .raised .stopIteration →
      singleParse fuel g = some (.ok none)
      ∧ (collectM (σ := PUnit) none fuel ⟨⟩ (initState g)).1 = [])
    ∧ (∀ f', fuel ≤ f' → pullNext fuel (initState g) ≠ .fuelOut →
      singleParse f' g = singleParse fuel g) := by
  intro β γ g fuel
  refine ⟨?_, ?_, ?_⟩
  · intro b c s' h
    constructor
    · unfold singleParse
      rw [h]
    · exact pullNext_head fuel (initState g) (b, c) s' h
  · intro h
    constructor
    · unfold singleParse
      rw [h]
    · rw [pullNext_raised fuel (initState g) .stopIteration h]
  · intro f' hle h
    unfold singleParse
    rw [pullNext_mono fuel (initState g) h f' hle]

/-- A main generator yielding a single `(results, stream)` pair. -/
def mainPair : PyGen (Nat × Nat) := .mk (fun _ => .ok (.inr (7, 9), .done))

/-- Witness for C4 at a concrete one-result parse: the single-parse wrapper
returns the matched-values component 7, the head of the full sequence is
`(7, 9)`, and more fuel does not change the answer. -/
theorem single_parse_pulls_exactly_one_result_witness :
    singleParse 5 mainPair = some (.ok (some 7))
    ∧ (collectM (σ := PUnit) none 5 ⟨⟩ (initState mainPair)).1.head? = some (7, 9)
    ∧ singleParse 9 mainPair = singleParse 5 mainPair := by
  have h := single_parse_pulls_exactly_one_result Nat Nat mainPair 5
  obtain ⟨h1, h2⟩ := h.1 7 9 ⟨[], .gen .done, 2⟩ rfl
  have hp : pullNext 5 (initState mainPair)
      = PullRes.yielded ((7 : Nat), (9 : Nat)) ⟨[], Reg.gen PyGen.done, 2⟩ := rfl
  exact ⟨h1, h2, h.2.2 9 (by omega) (by rw [hp]; simp)⟩

/-- The monitor value a `Configuration` ends up holding. -/
inductive ConfMonitor (μ : Type u) where
  | single (m : μ)
  | multiple (ms : List μ)
  deriving DecidableEq, Repr

/-- Model of `MultipleMonitors.__init__` as declared in `lepl/monitor.py`:
`def __init__(self):` takes no parameter besides `self`, so any call with
arguments raises TypeError before the body runs; a zero-argument call still
fails in the body, which references the undefined name `monitors` (and
passes an unexpected `monitors` keyword to the `LogMixin` initialiser). -/
def multipleMonitorsInit {μ : Type u} (args : List μ) : Except Exc (List μ) :=
  if args.length ≠ 0 then .error .typeError
  else .error .nameError

/-- The monitor handling of `Configuration.__init__`: `if not monitors:`
attaches no monitor; exactly one monitor is attached directly; otherwise
`MultipleMonitors(monitors)` is constructed with one positional argument. -/
def configurationInit {μ : Type u} :
    Option (List μ) → Except Exc (Option (ConfMonitor μ))
  | none => .ok none
  | some [] => .ok none
  | some [m] => .ok (some (.single m))
  | some ms => (multipleMonitorsInit ms).map (fun l => some (.multiple l))

/-- C8 (code bug): constructing a `Configuration` with zero monitors attaches
no monitor and with exactly one attaches that monitor directly, but with two
or more monitors it raises TypeError instead of building a
`MultipleMonitors`: `Configuration.__init__` calls
`MultipleMonitors(monitors)` with one positional argument while
`MultipleMonitors.__init__` declares no parameter besides `self`. -/
theorem configuration_monitor_construction :
    configurationInit (μ := Nat) none = .ok none
    ∧ configurationInit (μ := Nat) (some []) = .ok none
    ∧ configurationInit (μ := Nat) (some [5]) = .ok (some (.single 5))
    ∧ configurationInit (μ := Nat) (some [0, 1]) = .error .typeError :=
  ⟨rfl, rfl, rfl, rfl⟩
